import Mathlib

/-!
Shallow embedding of the real-time audio core of the koto repository
(crates koto-core, koto-audio-graph, koto-audio-engine), together with
proofs checking the natural-language specification against the code.

Conventions used throughout:
* Machine integers are embedded as `Nat`/`Int`; where Rust release-mode
  overflow semantics matter, two's-complement wrapping is made explicit
  with `wrap 32` / `wrap 64` (`as i32` casts are `wrap 32`).
* Rust's `/` and `%` on signed integers truncate toward zero, so they are
  embedded as `Int.tdiv` / `Int.tmod`.
* `f32` sample values are never interpreted arithmetically by the
  properties proved here, so `AudioBuffer` is polymorphic in the sample
  type; `f64` transport arithmetic appears only in the metronome scenario,
  where every operation is exact in binary64, so it is embedded over `ℚ`.
* `HashMap`/`HashSet` iteration order is unspecified in Rust; it is made
  an explicit parameter (an enumeration of the key set) wherever the code
  iterates a map.
-/

namespace Koto

/-! ## Two's-complement wrapping -/

/-- Interpret an unbounded integer as a `w`-bit two's-complement machine
integer: the value in `[-2^(w-1), 2^(w-1))` congruent to `x` mod `2^w`.
This is the result of Rust release-mode wrapping arithmetic and of
truncating `as` casts. -/
def wrap (w : Nat) (x : Int) : Int :=
  (x + 2 ^ (w - 1)) % 2 ^ w - 2 ^ (w - 1)


/-! ## Time model: src/crates/koto-core/src/types/time.rs -/

/-- Ticks per quarter note (PPQ): `TICKS_PER_QUARTER_NOTE = 960`. -/
def TICKS_PER_QUARTER_NOTE : Int := 960

/-- Musical time position; `bar`, `beat`, `tick` are `i32` fields
(embedded as `Int`, constrained to i32 range in theorems). -/
structure MusicalTime where
  bar : Int
  beat : Int
  tick : Int
deriving DecidableEq, Repr

namespace MusicalTime

/-- Constructor `MusicalTime::new`. -/
def new (bar beat tick : Int) : MusicalTime := ⟨bar, beat, tick⟩

/-- Embedding of `MusicalTime::to_ticks`.  The Rust source computes
`(self.bar - 1) as i64`, etc., then
`bars * bpb * 960 + beats * 960 + ticks` in `i64`; the `i32`
subtractions and every `i64` operation wrap in release mode. -/
def to_ticks (t : MusicalTime) (beats_per_bar : Int) : Int :=
  let bars := wrap 32 (t.bar - 1)
  let beats := wrap 32 (t.beat - 1)
  let ticks := t.tick
  wrap 64 (wrap 64 (wrap 64 (wrap 64 (bars * beats_per_bar) * TICKS_PER_QUARTER_NOTE)
    + wrap 64 (beats * TICKS_PER_QUARTER_NOTE)) + ticks)

/-- Embedding of `MusicalTime::from_ticks`.  Division and remainder are
Rust `i64` `/` and `%` (truncation toward zero); `as i32` casts wrap. -/
def from_ticks (total_ticks : Int) (beats_per_bar : Int) : MusicalTime :=
  let ticks_per_bar := wrap 64 (beats_per_bar * TICKS_PER_QUARTER_NOTE)
  let bar := wrap 32 (wrap 32 (total_ticks.tdiv ticks_per_bar) + 1)
  let remaining := total_ticks.tmod ticks_per_bar
  let beat := wrap 32 (wrap 32 (remaining.tdiv TICKS_PER_QUARTER_NOTE) + 1)
  let tick := wrap 32 (remaining.tmod TICKS_PER_QUARTER_NOTE)
  ⟨bar, beat, tick⟩

end MusicalTime

/-! ## MIDI messages: src/crates/koto-core/src/types/midi.rs -/

/-- `MidiChannel(pub u8)` newtype. -/
structure MidiChannel where
  val : Nat
deriving DecidableEq, Repr

/-- `MidiChannel::new` clamps to 15. -/
def MidiChannel.mk15 (channel : Nat) : MidiChannel := ⟨min channel 15⟩

/-- `NoteNumber(pub u8)` newtype. -/
structure NoteNumber where
  val : Nat
deriving DecidableEq, Repr

/-- `NoteNumber::new` clamps to 127. -/
def NoteNumber.mk127 (note : Nat) : NoteNumber := ⟨min note 127⟩

/-- `Velocity(pub u8)` newtype. -/
structure Velocity where
  val : Nat
deriving DecidableEq, Repr

/-- `Velocity::new` clamps to 127. -/
def Velocity.mk127 (velocity : Nat) : Velocity := ⟨min velocity 127⟩

/-- `ControlNumber(pub u8)` newtype. -/
structure ControlNumber where
  val : Nat
deriving DecidableEq, Repr

/-- `ControlNumber::new` clamps to 127. -/
def ControlNumber.mk127 (cc : Nat) : ControlNumber := ⟨min cc 127⟩

/-- The `MidiMessage` enum. -/
inductive MidiMessage where
  | NoteOn (channel : MidiChannel) (note : NoteNumber) (velocity : Velocity)
  | NoteOff (channel : MidiChannel) (note : NoteNumber) (velocity : Velocity)
  | ControlChange (channel : MidiChannel) (control : ControlNumber) (value : Nat)
  | ProgramChange (channel : MidiChannel) (program : Nat)
  | PitchBend (channel : MidiChannel) (value : Int)
  | ChannelPressure (channel : MidiChannel) (pressure : Nat)
  | PolyPressure (channel : MidiChannel) (note : NoteNumber) (pressure : Nat)
deriving DecidableEq, Repr

namespace MidiMessage

/-- Embedding of `MidiMessage::from_bytes`.  Bytes are `Nat`s below 256.
The Rust `match` on `status & 0xF0` with `data.len()` guards (falling
through to `None`) becomes a chain of conditionals; byte indexing after a
length guard becomes `List.getD`. -/
def from_bytes (data : List Nat) : Option MidiMessage :=
  if data.length = 0 then none
  else
    let status := data.getD 0 0
    let channel := MidiChannel.mk15 (status &&& 15)
    let message_type := status &&& 240
    if message_type = 144 ∧ 3 ≤ data.length then
      let note := NoteNumber.mk127 (data.getD 1 0)
      let velocity := Velocity.mk127 (data.getD 2 0)
      if velocity.val = 0 then some (.NoteOff channel note velocity)
      else some (.NoteOn channel note velocity)
    else if message_type = 128 ∧ 3 ≤ data.length then
      some (.NoteOff channel (NoteNumber.mk127 (data.getD 1 0))
        (Velocity.mk127 (data.getD 2 0)))
    else if message_type = 176 ∧ 3 ≤ data.length then
      some (.ControlChange channel (ControlNumber.mk127 (data.getD 1 0))
        (data.getD 2 0))
    else if message_type = 192 ∧ 2 ≤ data.length then
      some (.ProgramChange channel (data.getD 1 0))
    else if message_type = 224 ∧ 3 ≤ data.length then
      let lsb := data.getD 1 0
      let msb := data.getD 2 0
      some (.PitchBend channel ((((msb <<< 7) ||| lsb : Nat) : Int) - 8192))
    else if message_type = 208 ∧ 2 ≤ data.length then
      some (.ChannelPressure channel (data.getD 1 0))
    else if message_type = 160 ∧ 3 ≤ data.length then
      some (.PolyPressure channel (NoteNumber.mk127 (data.getD 1 0))
        (data.getD 2 0))
    else none

end MidiMessage

/-! ## Audio buffers: src/crates/koto-core/src/types/audio.rs

The sample type `f32` is never interpreted arithmetically by the shape
properties proved below, so the buffer is polymorphic in the sample
type `S` (instantiated with a concrete type in witnesses). -/

/-- The `AudioBuffer` struct: interleaved store, channel count
(`ChannelCount(pub u16)`, embedded via `as_usize` as `Nat`), frame
count. -/
structure AudioBuffer (S : Type) where
  samples : List S
  channels : Nat
  frames : Nat
deriving DecidableEq, Repr

namespace AudioBuffer

variable {S : Type}

/-- `AudioBuffer::new`: silence-filled store of `channels * frames`. -/
def new [Zero S] (channels frames : Nat) : AudioBuffer S :=
  ⟨List.replicate (channels * frames) 0, channels, frames⟩

/-- Embedding of `AudioBuffer::from_samples`: the frame count is
`samples.len() / channels` (truncating integer division) and the store
is kept as given; there is no error path in the source. -/
def from_samples (samples : List S) (channels : Nat) : AudioBuffer S :=
  ⟨samples, channels, samples.length / channels⟩

/-- `AudioBuffer::clear`: `samples.fill(0.0)`. -/
def clear [Zero S] (b : AudioBuffer S) : AudioBuffer S :=
  { b with samples := b.samples.map fun _ => 0 }

/-- Embedding of `AudioBuffer::copy_from`: copy the overlapping length
`len = min(dst.len, src.len)`; indices at `len` and beyond keep the
destination's samples. -/
def copy_from (b other : AudioBuffer S) : AudioBuffer S :=
  let len := min b.samples.length other.samples.length
  { b with samples := other.samples.take len ++ b.samples.drop len }

/-- Embedding of `AudioBuffer::mix`: add the overlapping length
elementwise; indices at `len` and beyond keep the destination's
samples. -/
def mix [Add S] (b other : AudioBuffer S) : AudioBuffer S :=
  let len := min b.samples.length other.samples.length
  { b with samples := List.zipWith (· + ·) b.samples other.samples ++ b.samples.drop len }

/-- `AudioBuffer::apply_gain`: `*sample *= gain` for every sample. -/
def apply_gain [Mul S] (b : AudioBuffer S) (gain : S) : AudioBuffer S :=
  { b with samples := b.samples.map (· * gain) }

/-- `AudioBuffer::set`: bounds-checked in-place write at
`frame * channels + channel`. -/
def set (b : AudioBuffer S) (frame channel : Nat) (value : S) : AudioBuffer S :=
  if frame < b.frames ∧ channel < b.channels then
    { b with samples := b.samples.set (frame * b.channels + channel) value }
  else b

/-- The spec's shape invariant: sample-store length equals
channels × frames. -/
def shapeInv (b : AudioBuffer S) : Prop :=
  b.samples.length = b.channels * b.frames

end AudioBuffer

/-! ## Metronome scenario (C5):
src/crates/koto-audio-engine/src/callback.rs, generate_metronome, and
src/crates/koto-core/src/types/time.rs, Tempo::samples_per_beat.

The source computes in `f64`.  At the scenario's inputs (tempo 120,
rate 48000, playhead 0 and 24000) every `f64` operation is exact
(integers below 2^53 and exact quotients), so the arithmetic is embedded
over `ℚ`.  `f64::fract` is `x - trunc x` and the `as i32` cast truncates
toward zero; both are embedded with `ftrunc`.  The `f64` literal `0.01`
is embedded as `1/100`; at the proved inputs the compared phase is
exactly `0`, where the two thresholds agree. -/

/-- Truncation toward zero on `ℚ` (semantics of `f64::trunc` and of the
`as i64`/`as i32` float-to-int casts, for in-range values). -/
def ftrunc (q : ℚ) : Int := if 0 ≤ q then ⌊q⌋ else -⌊-q⌋

/-- `Tempo::samples_per_beat`: `sample_rate * 60.0 / bpm`. -/
def samples_per_beat (bpm rate : ℚ) : ℚ := rate * 60 / bpm

/-- The per-frame click decision of `AudioCallback::generate_metronome`:
`some freq` when a click is emitted at this frame (beat phase below the
click window), `none` otherwise.  `numerator` is the time signature
numerator as `i32`; Rust `%` on `i32` is `Int.tmod`. -/
def metronome_click_freq (bpm rate : ℚ) (numerator : Int) (playhead : Int)
    (frame : Nat) : Option ℚ :=
  let spb := samples_per_beat bpm rate
  let sample_pos : ℚ := (playhead : ℚ) + (frame : ℚ)
  let beat_pos := sample_pos / spb
  let beat_phase := beat_pos - (ftrunc beat_pos : ℚ)
  if beat_phase < 1 / 100 then
    some (if (ftrunc beat_pos).tmod numerator = 0 then 880 else 440)
  else none

/-! ## Buffer pool (C6): src/crates/koto-audio-engine/src/buffer_pool.rs -/

/-- The `BufferPool` struct: a deque of pre-allocated buffers plus the
uniform shape. -/
structure BufferPool (S : Type) where
  buffers : List (AudioBuffer S)
  channels : Nat
  frames : Nat
deriving DecidableEq, Repr

namespace BufferPool

variable {S : Type}

/-- `BufferPool::new`: pre-allocate `num_buffers` silent buffers. -/
def new [Zero S] (num_buffers channels frames : Nat) : BufferPool S :=
  ⟨List.replicate num_buffers (AudioBuffer.new channels frames), channels, frames⟩

/-- `BufferPool::acquire`: pop the front buffer, `none` when empty. -/
def acquire (p : BufferPool S) : Option (AudioBuffer S) × BufferPool S :=
  match p.buffers with
  | [] => (none, p)
  | b :: rest => (some b, { p with buffers := rest })

/-- `BufferPool::release`: clear the buffer and push it to the back. -/
def release [Zero S] (p : BufferPool S) (buffer : AudioBuffer S) : BufferPool S :=
  { p with buffers := p.buffers ++ [buffer.clear] }

/-- `BufferPool::available`. -/
def available (p : BufferPool S) : Nat := p.buffers.length

end BufferPool

/-- A client-visible pool operation: acquire, or release one currently
held (previously acquired, not yet released) buffer. -/
inductive PoolOp where
  | acquire
  | release
deriving DecidableEq, Repr

/-- One client step against the pool.  The client state carries the pool
and the list of currently held buffers; `release` returns the most
recently acquired held buffer (which one is released does not affect any
count).  A `release` with nothing held would correspond to releasing a
buffer that never came from the pool — traces are restricted to avoid it
via `validOps`. -/
def poolStep [Zero S] (st : BufferPool S × List (AudioBuffer S)) (op : PoolOp) :
    BufferPool S × List (AudioBuffer S) :=
  match op with
  | .acquire =>
    match st.1.acquire with
    | (none, p) => (p, st.2)
    | (some b, p) => (p, b :: st.2)
  | .release =>
    match st.2 with
    | [] => st
    | b :: rest => (st.1.release b, rest)

/-- Run a sequence of pool operations. -/
def poolRun [Zero S] (st : BufferPool S × List (AudioBuffer S)) (ops : List PoolOp) :
    BufferPool S × List (AudioBuffer S) :=
  ops.foldl poolStep st

/-- A trace is valid when every `release` happens while at least one
acquired buffer is held (the claim's "releasing only buffers previously
acquired from that pool"). -/
def validOps [Zero S] : BufferPool S × List (AudioBuffer S) → List PoolOp → Bool
  | _, [] => true
  | st, op :: ops =>
    (match op, st.2 with
     | .release, [] => false
     | _, _ => true) && validOps (poolStep st op) ops

/-! ## Audio callback transport effect (C9):
src/crates/koto-audio-engine/src/callback.rs and command.rs.

The state transition of `AudioCallback::process` is embedded in full
(command draining, conditional playhead advance, meter counter).  Output
sample contents (silence, metronome synthesis via `sin`, master-volume
multiply) and event emission do not feed back into the transport state
and are not needed by the claim.  Command payloads carried as `f64`/`f32`
(tempo, volume) are embedded over `ℚ`; they are stored or clamped
verbatim and never interpreted by these properties. -/

/-- The `TransportState` struct.  `playhead` is an `i64`
(`SamplePosition`). -/
structure TransportState where
  is_playing : Bool
  is_recording : Bool
  playhead : Int
  tempo : ℚ
  time_sig_numerator : Nat
  time_sig_denominator : Nat
  loop_enabled : Bool
  loop_start : Int
  loop_end : Int
deriving DecidableEq, Repr

/-- `TransportState::new`: default state with tempo 120 and 4/4. -/
def TransportState.new : TransportState :=
  ⟨false, false, 0, 120, 4, 4, false, 0, 0⟩

/-- The `AudioCommand` enum. -/
inductive AudioCommand where
  | Play
  | Stop
  | Seek (position : Int)
  | SetTempo (tempo : ℚ)
  | SetTimeSignature (numerator denominator : Nat)
  | StartRecording
  | StopRecording
  | SetMasterVolume (volume : ℚ)
  | SetMetronomeEnabled (enabled : Bool)
deriving DecidableEq, Repr

/-- Whether a command is a `Seek`. -/
def AudioCommand.isSeek : AudioCommand → Bool
  | .Seek _ => true
  | _ => false

/-- The mutable state of `AudioCallback` that the callback logic reads
or writes (queues and the shared recording store are modelled only by
the presence flag the commands toggle). -/
structure AudioCallbackState where
  transport : TransportState
  master_volume : ℚ
  metronome_enabled : Bool
  meter_frame_counter : Nat
  meter_update_interval : Nat
  has_recording_buffer : Bool
deriving DecidableEq, Repr

/-- `AudioCallback::new`: meter interval `max (sample_rate / 30)
buffer_size`, volume 1, metronome off, fresh transport. -/
def AudioCallbackState.new (sample_rate buffer_size : Nat) : AudioCallbackState :=
  ⟨TransportState.new, 1, false, 0, max (sample_rate / 30) buffer_size, false⟩

/-- One arm of the `match command` in `process_commands`.  `f32::clamp`
on the master volume becomes `min (max v 0) 1`. -/
def applyCommand (st : AudioCallbackState) : AudioCommand → AudioCallbackState
  | .Play => { st with transport := { st.transport with is_playing := true } }
  | .Stop => { st with transport := { st.transport with is_playing := false } }
  | .Seek p => { st with transport := { st.transport with playhead := p } }
  | .SetTempo t => { st with transport := { st.transport with tempo := t } }
  | .SetTimeSignature nu de =>
    { st with transport :=
      { st.transport with time_sig_numerator := nu, time_sig_denominator := de } }
  | .StartRecording =>
    { st with
      transport := { st.transport with is_recording := true }
      has_recording_buffer := true }
  | .StopRecording =>
    { st with
      transport := { st.transport with is_recording := false }
      has_recording_buffer := false }
  | .SetMasterVolume v => { st with master_volume := min (max v 0) 1 }
  | .SetMetronomeEnabled e => { st with metronome_enabled := e }

/-- `AudioCallback::process_commands`: drain every pending command in
FIFO order. -/
def process_commands (st : AudioCallbackState) (cmds : List AudioCommand) :
    AudioCallbackState :=
  cmds.foldl applyCommand st

/-- State effect of `AudioCallback::process` on an interleaved stereo
output slice of `outputLen` samples: drain commands, then (while
playing) advance the playhead by `frames = outputLen / 2`
(`SamplePosition::advance` is a wrapping `i64` add in release mode),
then update the meter frame counter. -/
def process_state (st : AudioCallbackState) (cmds : List AudioCommand)
    (outputLen : Nat) : AudioCallbackState :=
  let st1 := process_commands st cmds
  let frames := outputLen / 2
  let st2 :=
    if st1.transport.is_playing then
      { st1 with transport :=
        { st1.transport with playhead := wrap 64 (st1.transport.playhead + frames) } }
    else st1
  let counter := st2.meter_frame_counter + frames
  if st2.meter_update_interval ≤ counter then
    { st2 with meter_frame_counter := 0 }
  else
    { st2 with meter_frame_counter := counter }

/-! ## Graph scheduler: src/crates/koto-audio-graph/src/schedule.rs

`NodeId(pub u64)` is embedded as `Nat` (ids are only compared for
equality).  The source iterates `HashMap`/`HashSet` collections whose
iteration order is unspecified; the order in which the `in_degree` map is
iterated when seeding the queue is therefore an explicit parameter
`iterOrder` (an enumeration of the key set, which the code populates with
exactly the nodes referenced by connections). -/

namespace GraphScheduler

/-- The distinct nodes referenced by the connection list (the code's
`all_nodes: HashSet<NodeId>`, also the key set of `in_degree`). -/
def nodeSet (conns : List (Nat × Nat)) : Finset Nat :=
  (conns.map Prod.fst).toFinset ∪ (conns.map Prod.snd).toFinset

/-- The adjacency list built by the first loop of `compute_order`:
targets of the connections leaving `node`, in connection order, with
multiplicity. -/
def adj (conns : List (Nat × Nat)) (node : Nat) : List Nat :=
  (conns.filter fun e => e.1 == node).map Prod.snd

/-- The `in_degree` map after the build loops: one count per connection
entering `n` (and `0` for nodes without incoming connections). -/
def indegInit (conns : List (Nat × Nat)) (n : Nat) : Nat :=
  conns.countP fun e => e.2 == n

/-- The inner neighbor loop of Kahn's algorithm: decrement the in-degree
of each target in turn, collecting (in order) the nodes whose degree
reaches zero, which the code pushes onto the queue. -/
def decrementAll (indeg : Nat → Nat) : List Nat → (Nat → Nat) × List Nat
  | [] => (indeg, [])
  | m :: ms =>
    let d := indeg m - 1
    let next := decrementAll (fun x => if x = m then d else indeg x) ms
    if d = 0 then (next.1, m :: next.2) else next

/-- The `while let Some(node) = queue.pop_front()` loop of
`compute_order`.  The loop always terminates because the queue only ever
holds nodes whose degree reached zero; `fuel` makes this structural, and
`kahnLoop_post` below shows the fuel passed by `compute_order` is never
exhausted. -/
def kahnLoop (adjf : Nat → List Nat) : Nat → List Nat → (Nat → Nat) → List Nat → List Nat
  | 0, _, _, result => result
  | _ + 1, [], _, result => result
  | fuel + 1, node :: rest, indeg, result =>
    let next := decrementAll indeg (adjf node)
    kahnLoop adjf fuel (rest ++ next.2) next.1 (result ++ [node])

/-- Embedding of `GraphScheduler::compute_order` (the `_graph` argument
is unused by the source).  `iterOrder` is the unspecified iteration order
of the `in_degree` map when seeding the queue with zero-in-degree nodes.
On a cyclic input the loop drains without reaching every node and the
partial `result` is returned as-is (the source only logs a warning). -/
def compute_order (iterOrder : List Nat) (conns : List (Nat × Nat)) : List Nat :=
  let seed := iterOrder.filter fun n => indegInit conns n == 0
  kahnLoop (adj conns) (iterOrder.length + conns.length + 1) seed (indegInit conns) []

/-- Number of connections into `n` whose source has not yet been placed
in `result`: the value the `in_degree` map holds mid-run. -/
def unprocessedInto (conns : List (Nat × Nat)) (result : List Nat) (n : Nat) : Nat :=
  conns.countP fun e => decide (e.2 = n ∧ e.1 ∉ result)

/-- Edge relation of the connection list. -/
def Edge (conns : List (Nat × Nat)) (a b : Nat) : Prop := (a, b) ∈ conns

/-- A connection set is acyclic when no node reaches itself through a
nonempty chain of connections. -/
def Acyclic (conns : List (Nat × Nat)) : Prop :=
  ∀ n, ¬ Relation.TransGen (Edge conns) n n


/-- Loop invariant of Kahn's algorithm, between iterations of the
`while let` loop: `indeg` holds the number of still-unprocessed incoming
connections, processed and queued nodes are distinct referenced nodes,
queued nodes are exactly ready, unprocessed-unqueued nodes still have an
unprocessed incoming connection, and `result` is topologically ordered so
far. -/
structure KahnInv (conns : List (Nat × Nat)) (queue result : List Nat)
    (indeg : Nat → Nat) : Prop where
  indeg_eq : ∀ n, indeg n = unprocessedInto conns result n
  nodup : (result ++ queue).Nodup
  mem_nodes : ∀ n ∈ result ++ queue, n ∈ nodeSet conns
  queue_zero : ∀ n ∈ queue, indeg n = 0
  blocked : ∀ n ∈ nodeSet conns, n ∉ result → n ∉ queue → indeg n ≠ 0
  ordered : ∀ e ∈ conns, e.2 ∈ result →
    e.1 ∈ result ∧ result.indexOf e.1 < result.indexOf e.2

/-- What holds of the returned order when the loop has drained. -/
def KahnPost (conns : List (Nat × Nat)) (res : List Nat) : Prop :=
  res.Nodup ∧ (∀ n ∈ res, n ∈ nodeSet conns) ∧
    (∀ n ∈ nodeSet conns, n ∉ res → 0 < unprocessedInto conns res n) ∧
    (∀ e ∈ conns, e.2 ∈ res → e.1 ∈ res ∧ res.indexOf e.1 < res.indexOf e.2)


theorem acyclic_of_rank (conns : List (Nat × Nat)) (r : Nat → Nat)
    (h : ∀ e ∈ conns, r e.1 < r e.2) : Acyclic conns := by
  intro n hn
  have key : ∀ a b : Nat, Relation.TransGen (Edge conns) a b → r a < r b := by
    intro a b hab
    induction hab with
    | single h1 => exact h _ h1
    | tail _ h1 ih => exact lt_trans ih (h _ h1)
  exact absurd (key n n hn) (lt_irrefl _)

theorem edge_mem_nodeSet {conns : List (Nat × Nat)} {e : Nat × Nat} (he : e ∈ conns) :
    e.1 ∈ nodeSet conns ∧ e.2 ∈ nodeSet conns := by
  constructor
  · exact Finset.mem_union_left _ (List.mem_toFinset.mpr (List.mem_map_of_mem _ he))
  · exact Finset.mem_union_right _ (List.mem_toFinset.mpr (List.mem_map_of_mem _ he))

theorem mem_adj {conns : List (Nat × Nat)} {node m : Nat} :
    m ∈ adj conns node ↔ ∃ e ∈ conns, e.1 = node ∧ e.2 = m := by
  simp only [adj, List.mem_map, List.mem_filter, beq_iff_eq]
  constructor
  · rintro ⟨e, ⟨he, h1⟩, h2⟩
    exact ⟨e, he, h1, h2⟩
  · rintro ⟨e, he, h1, h2⟩
    exact ⟨e, ⟨he, h1⟩, h2⟩

theorem adj_subset_nodeSet {conns : List (Nat × Nat)} {node m : Nat}
    (h : m ∈ adj conns node) : m ∈ nodeSet conns := by
  obtain ⟨e, he, -, h2⟩ := mem_adj.mp h
  exact h2 ▸ (edge_mem_nodeSet he).2

theorem count_adj (conns : List (Nat × Nat)) (node m : Nat) :
    (adj conns node).count m = conns.countP fun e => decide (e.2 = m ∧ e.1 = node) := by
  induction conns with
  | nil => rfl
  | cons e t ih =>
    simp only [adj, List.filter_cons, List.countP_cons] at *
    by_cases h1 : e.1 = node
    · simp only [h1, beq_self_eq_true, if_true, List.map_cons, List.count_cons, ih, adj]
      by_cases h2 : e.2 = m <;> simp [h2]
    · have : (e.1 == node) = false := by simpa using h1
      simp only [this, Bool.false_eq_true, if_false, ih, adj]
      have : ¬(e.2 = m ∧ e.1 = node) := fun hc => h1 hc.2
      simp [this]

theorem unprocessedInto_nil (conns : List (Nat × Nat)) (n : Nat) :
    unprocessedInto conns [] n = indegInit conns n := by
  apply List.countP_congr
  intro e _
  simp

/-- Splitting a `countP` into two disjoint parts, checked pointwise. -/
theorem countP_split {α : Type} (l : List α) (p q r : α → Bool)
    (h : ∀ a ∈ l, (p a).toNat = (q a).toNat + (r a).toNat) :
    l.countP p = l.countP q + l.countP r := by
  induction l with
  | nil => rfl
  | cons a t ih =>
    have ha := h a (List.mem_cons_self a t)
    have ht := ih fun b hb => h b (List.mem_cons_of_mem _ hb)
    simp only [List.countP_cons]
    cases hp : p a <;> cases hq : q a <;> cases hr : r a <;>
      simp [hp, hq, hr] at ha ⊢ <;> omega

/-- Placing a node `n` not yet in `result` splits the unprocessed count
of every node `m` into the part still unprocessed afterwards and the
connections from `n` itself. -/
theorem unprocessedInto_snoc (conns : List (Nat × Nat)) (result : List Nat)
    {n : Nat} (hn : n ∉ result) (m : Nat) :
    unprocessedInto conns result m
      = unprocessedInto conns (result ++ [n]) m + (adj conns n).count m := by
  rw [count_adj]
  unfold unprocessedInto
  apply countP_split
  intro e _
  by_cases h2 : e.2 = m
  · by_cases h1 : e.1 = n
    · simp [h2, h1, hn]
    · by_cases hmem : e.1 ∈ result <;> simp [h2, h1, hmem]
  · simp [h2]

theorem unprocessedInto_eq_zero {conns : List (Nat × Nat)} {result : List Nat} {n : Nat} :
    unprocessedInto conns result n = 0 ↔ ∀ e ∈ conns, e.2 = n → e.1 ∈ result := by
  unfold unprocessedInto
  rw [List.countP_eq_zero]
  constructor
  · intro h e he h2
    have := h e he
    simp only [decide_eq_true_eq] at this
    by_contra hc
    exact this ⟨h2, hc⟩
  · intro h e he
    simp only [decide_eq_true_eq, not_and, not_not]
    exact fun h2 => h e he h2

theorem decrementAll_fst (L : List Nat) : ∀ (indeg : Nat → Nat) (x : Nat),
    (decrementAll indeg L).1 x = indeg x - L.count x := by
  induction L with
  | nil => intro indeg x; simp [decrementAll]
  | cons m ms ih =>
    intro indeg x
    simp only [decrementAll]
    split
    · simp only []
      rw [ih]
      by_cases hx : x = m
      · subst hx
        simp [List.count_cons]
        omega
      · have : (m == x) = false := by simpa using fun h => hx h.symm
        simp [List.count_cons, hx, this]
    · rw [ih]
      by_cases hx : x = m
      · subst hx
        simp [List.count_cons]
        omega
      · have : (m == x) = false := by simpa using fun h => hx h.symm
        simp [List.count_cons, hx, this]

theorem decrementAll_snd_mem (L : List Nat) : ∀ (indeg : Nat → Nat),
    (∀ y, L.count y ≤ indeg y) → ∀ x,
    (x ∈ (decrementAll indeg L).2 ↔ (x ∈ L ∧ indeg x = L.count x)) := by
  induction L with
  | nil => intro indeg _ x; simp [decrementAll]
  | cons m ms ih =>
    intro indeg h x
    have hm : ms.count m + 1 ≤ indeg m := by
      have := h m
      simp [List.count_cons] at this
      omega
    have h1 : ∀ y, ms.count y ≤ (fun x => if x = m then indeg m - 1 else indeg x) y := by
      intro y
      by_cases hy : y = m
      · subst hy; simp; omega
      · have hmy : (m == y) = false := by simpa using fun h => hy h.symm
        have := h y
        simp [List.count_cons, hmy, hy] at this ⊢
        omega
    have ihx := ih _ h1
    simp only [decrementAll]
    by_cases hd : indeg m - 1 = 0
    · have him : indeg m = 1 := by omega
      have hms0 : ms.count m = 0 := by omega
      have hnotin : m ∉ ms := by
        intro hc
        have := List.count_pos_iff.mpr hc
        omega
      rw [if_pos hd]
      simp only [List.mem_cons]
      by_cases hx : x = m
      · subst hx
        constructor
        · intro _
          refine ⟨Or.inl rfl, ?_⟩
          simp [List.count_cons, hms0, him]
        · intro _
          exact Or.inl rfl
      · have hmx : (m == x) = false := by simpa using fun h => hx h.symm
        rw [ihx x]
        simp [hx, List.count_cons, hmx]
    · rw [if_neg hd]
      rw [ihx x]
      by_cases hx : x = m
      · simp only [hx, if_pos rfl, List.mem_cons, List.count_cons, beq_self_eq_true,
          if_true]
        constructor
        · rintro ⟨hmem, heq⟩
          exact ⟨by simp, by omega⟩
        · rintro ⟨-, heq⟩
          refine ⟨?_, by omega⟩
          have hpos : 0 < ms.count m := by omega
          exact List.count_pos_iff.mp hpos
      · have hmx : (m == x) = false := by simpa using fun h => hx h.symm
        simp [hx, List.count_cons, hmx]

theorem decrementAll_snd_nodup (L : List Nat) : ∀ (indeg : Nat → Nat),
    (∀ y, L.count y ≤ indeg y) → (decrementAll indeg L).2.Nodup := by
  induction L with
  | nil => intro indeg _; simp [decrementAll]
  | cons m ms ih =>
    intro indeg h
    have hm : ms.count m + 1 ≤ indeg m := by
      have := h m
      simp [List.count_cons] at this
      omega
    have h1 : ∀ y, ms.count y ≤ (fun x => if x = m then indeg m - 1 else indeg x) y := by
      intro y
      by_cases hy : y = m
      · subst hy; simp; omega
      · have hmy : (m == y) = false := by simpa using fun h => hy h.symm
        have := h y
        simp [List.count_cons, hmy, hy] at this ⊢
        omega
    simp only [decrementAll]
    by_cases hd : indeg m - 1 = 0
    · have hms0 : ms.count m = 0 := by omega
      have hnotin : m ∉ ms := by
        intro hc
        have := List.count_pos_iff.mpr hc
        omega
      rw [if_pos hd]
      simp only [List.nodup_cons]
      refine ⟨?_, ih _ h1⟩
      intro hc
      exact hnotin ((decrementAll_snd_mem ms _ h1 m).mp hc).1
    · rw [if_neg hd]
      exact ih _ h1

theorem indexOf_append_self {a : Nat} : ∀ {l : List Nat}, a ∉ l →
    (l ++ [a]).indexOf a = l.length := by
  intro l
  induction l with
  | nil => intro _; simp
  | cons b t ih =>
    intro h
    simp only [List.mem_cons, not_or] at h
    have hba : (b == a) = false := by simpa using fun hh => h.1 hh.symm
    simp [List.indexOf_cons, hba, ih h.2]

theorem sum_count_eq_length (S : Finset Nat) : ∀ (L : List Nat),
    (∀ m ∈ L, m ∈ S) → (∑ n ∈ S, L.count n) = L.length := by
  intro L
  induction L with
  | nil => intro _; simp
  | cons m t ih =>
    intro h
    have hm : m ∈ S := h m (List.mem_cons_self m t)
    have ht := ih fun b hb => h b (List.mem_cons_of_mem _ hb)
    simp only [List.count_cons]
    rw [Finset.sum_add_distrib, ht]
    have hone : (∑ n ∈ S, if (m == n) = true then 1 else 0) = 1 := by
      have hc : ∀ n, (if (m == n) = true then 1 else 0) = if m = n then 1 else 0 := by
        intro n
        simp [beq_iff_eq]
      rw [Finset.sum_congr rfl fun n _ => hc n, Finset.sum_ite_eq, if_pos hm]
    rw [hone]
    simp

theorem sum_indegInit_le (S : Finset Nat) (conns : List (Nat × Nat)) :
    (∑ n ∈ S, indegInit conns n) ≤ conns.length := by
  induction conns with
  | nil => simp [indegInit]
  | cons e t ih =>
    have hsplit : ∀ n, indegInit (e :: t) n
        = indegInit t n + if (e.2 == n) = true then 1 else 0 := by
      intro n
      simp [indegInit, List.countP_cons]
    calc ∑ n ∈ S, indegInit (e :: t) n
        = (∑ n ∈ S, indegInit t n) + ∑ n ∈ S, (if (e.2 == n) = true then 1 else 0) := by
          rw [← Finset.sum_add_distrib]
          exact Finset.sum_congr rfl fun n _ => hsplit n
      _ ≤ t.length + 1 := by
          have h2 : (∑ n ∈ S, if (e.2 == n) = true then 1 else 0) ≤ 1 := by
            have hc : ∀ n, (if (e.2 == n) = true then 1 else 0)
                = if e.2 = n then 1 else 0 := by
              intro n
              simp [beq_iff_eq]
            rw [Finset.sum_congr rfl fun n _ => hc n, Finset.sum_ite_eq]
            split <;> omega
          omega
      _ = (e :: t).length := by simp
theorem kahnInv_nil_post {conns : List (Nat × Nat)} {result : List Nat}
    {indeg : Nat → Nat} (hinv : KahnInv conns [] result indeg) :
    KahnPost conns result := by
  obtain ⟨hieq, hnd, hmemn, -, hblk, hord⟩ := hinv
  refine ⟨by simpa using hnd, fun n hn => hmemn n (by simpa using hn), ?_, hord⟩
  intro n hnS hnr
  have := hblk n hnS hnr (List.not_mem_nil n)
  rw [hieq n] at this
  omega

/-- One iteration of the loop preserves the invariant and strictly
decreases `queue length + total remaining in-degree`. -/
theorem kahn_step {conns : List (Nat × Nat)} {node : Nat} {rest result : List Nat}
    {indeg : Nat → Nat} (hinv : KahnInv conns (node :: rest) result indeg) :
    KahnInv conns (rest ++ (decrementAll indeg (adj conns node)).2) (result ++ [node])
      (decrementAll indeg (adj conns node)).1
    ∧ (rest ++ (decrementAll indeg (adj conns node)).2).length
        + (∑ n ∈ nodeSet conns, (decrementAll indeg (adj conns node)).1 n) + 1
      ≤ rest.length + 1 + (∑ n ∈ nodeSet conns, indeg n) := by
  obtain ⟨hieq, hnd, hmemn, hqz, hblk, hord⟩ := hinv
  have hnode_res : node ∉ result := by
    intro hc
    exact (List.nodup_append.mp hnd).2.2 hc (List.mem_cons_self _ _)
  have hnode_node : node ∈ nodeSet conns := hmemn node (by simp)
  have hqz_node : indeg node = 0 := hqz node (List.mem_cons_self _ _)
  have hcnt : ∀ m, (adj conns node).count m ≤ indeg m := by
    intro m
    rw [hieq m, count_adj]
    apply List.countP_mono_left
    intro e _ he
    simp only [decide_eq_true_eq] at he ⊢
    exact ⟨he.1, he.2 ▸ hnode_res⟩
  have hfst := decrementAll_fst (adj conns node) indeg
  have hmem2 := decrementAll_snd_mem (adj conns node) indeg hcnt
  have hnd2 := decrementAll_snd_nodup (adj conns node) indeg hcnt
  have hieq' : ∀ m, (decrementAll indeg (adj conns node)).1 m
      = unprocessedInto conns (result ++ [node]) m := by
    intro m
    rw [hfst m, hieq m, unprocessedInto_snoc conns result hnode_res m]
    have := hcnt m
    rw [hieq m] at this
    omega
  have hpos2 : ∀ m ∈ (decrementAll indeg (adj conns node)).2, 0 < indeg m := by
    intro m hm
    obtain ⟨hmL, heq⟩ := (hmem2 m).mp hm
    have := List.count_pos_iff.mpr hmL
    omega
  have hnot_res : ∀ m ∈ (decrementAll indeg (adj conns node)).2, m ∉ result := by
    intro m hm hc
    have h0 : unprocessedInto conns result m = 0 := by
      rw [unprocessedInto_eq_zero]
      intro e he h2
      exact (hord e he (h2 ▸ hc)).1
    have := hpos2 m hm
    rw [hieq m] at this
    omega
  have hnot_q : ∀ m ∈ (decrementAll indeg (adj conns node)).2, m ∉ (node :: rest) := by
    intro m hm hc
    have h1 := hpos2 m hm
    have h2 := hqz m hc
    omega
  have hnd' : ((result ++ [node]) ++ (rest ++ (decrementAll indeg (adj conns node)).2)).Nodup := by
    have hA : ((result ++ [node]) ++ rest).Nodup := by
      rw [← List.append_cons]
      exact hnd
    rw [show (result ++ [node]) ++ (rest ++ (decrementAll indeg (adj conns node)).2)
        = ((result ++ [node]) ++ rest) ++ (decrementAll indeg (adj conns node)).2 by
      simp [List.append_assoc]]
    rw [List.nodup_append]
    refine ⟨hA, hnd2, ?_⟩
    intro a ha ha2
    have h1 := hnot_res a ha2
    have h2 := hnot_q a ha2
    simp only [List.mem_append, List.mem_singleton, List.mem_cons, not_or] at ha h1 h2
    tauto
  have hmemn' : ∀ n ∈ (result ++ [node]) ++ (rest ++ (decrementAll indeg (adj conns node)).2),
      n ∈ nodeSet conns := by
    intro n hn
    simp only [List.mem_append, List.mem_singleton] at hn
    rcases hn with (h | h) | (h | h)
    · exact hmemn n (List.mem_append_left _ h)
    · exact h ▸ hnode_node
    · exact hmemn n (List.mem_append_right _ (List.mem_cons_of_mem _ h))
    · exact adj_subset_nodeSet ((hmem2 n).mp h).1
  have hqz' : ∀ n ∈ rest ++ (decrementAll indeg (adj conns node)).2,
      (decrementAll indeg (adj conns node)).1 n = 0 := by
    intro n hn
    rw [hfst n]
    rcases List.mem_append.mp hn with h | h
    · have := hqz n (List.mem_cons_of_mem _ h)
      omega
    · have := ((hmem2 n).mp h).2
      omega
  have hblk' : ∀ n ∈ nodeSet conns, n ∉ result ++ [node] →
      n ∉ rest ++ (decrementAll indeg (adj conns node)).2 →
      (decrementAll indeg (adj conns node)).1 n ≠ 0 := by
    intro n hnS hnr hnq
    simp only [List.mem_append, List.mem_singleton, not_or] at hnr hnq
    have hb := hblk n hnS hnr.1 (by
      simp only [List.mem_cons, not_or]
      exact ⟨hnr.2, hnq.1⟩)
    rw [hfst n]
    intro hc
    have hcn := hcnt n
    have heq : indeg n = (adj conns node).count n := by omega
    have hmemL : n ∈ adj conns node := List.count_pos_iff.mp (by omega)
    exact hnq.2 ((hmem2 n).mpr ⟨hmemL, heq⟩)
  have hord' : ∀ e ∈ conns, e.2 ∈ result ++ [node] →
      e.1 ∈ result ++ [node]
      ∧ (result ++ [node]).indexOf e.1 < (result ++ [node]).indexOf e.2 := by
    intro e he h2
    rcases List.mem_append.mp h2 with h | h
    · obtain ⟨h1, hlt⟩ := hord e he h
      refine ⟨List.mem_append_left _ h1, ?_⟩
      rw [List.indexOf_append_of_mem h1, List.indexOf_append_of_mem h]
      exact hlt
    · rw [List.mem_singleton] at h
      have h0 : unprocessedInto conns result node = 0 := by
        rw [← hieq]
        exact hqz_node
      have hsrc : e.1 ∈ result := (unprocessedInto_eq_zero.mp h0) e he h
      refine ⟨List.mem_append_left _ hsrc, ?_⟩
      rw [List.indexOf_append_of_mem hsrc, h, indexOf_append_self hnode_res]
      exact List.indexOf_lt_length.mpr hsrc
  have hsum_count : (∑ n ∈ nodeSet conns, (adj conns node).count n)
      = (adj conns node).length :=
    sum_count_eq_length _ _ fun m hm => adj_subset_nodeSet hm
  have hsum_new : (∑ n ∈ nodeSet conns, (decrementAll indeg (adj conns node)).1 n)
      + (adj conns node).length = (∑ n ∈ nodeSet conns, indeg n) := by
    have hpt : ∀ n ∈ nodeSet conns,
        (decrementAll indeg (adj conns node)).1 n + (adj conns node).count n = indeg n := by
      intro n _
      rw [hfst n]
      have := hcnt n
      omega
    calc (∑ n ∈ nodeSet conns, (decrementAll indeg (adj conns node)).1 n)
          + (adj conns node).length
        = (∑ n ∈ nodeSet conns, (decrementAll indeg (adj conns node)).1 n)
          + (∑ n ∈ nodeSet conns, (adj conns node).count n) := by rw [hsum_count]
      _ = ∑ n ∈ nodeSet conns,
            ((decrementAll indeg (adj conns node)).1 n + (adj conns node).count n) :=
          Finset.sum_add_distrib.symm
      _ = ∑ n ∈ nodeSet conns, indeg n := Finset.sum_congr rfl hpt
  have hlen2 : (decrementAll indeg (adj conns node)).2.length ≤ (adj conns node).length := by
    have hsub : (decrementAll indeg (adj conns node)).2.toFinset ⊆ (adj conns node).toFinset := by
      intro a ha
      rw [List.mem_toFinset] at ha ⊢
      exact ((hmem2 a).mp ha).1
    calc (decrementAll indeg (adj conns node)).2.length
        = (decrementAll indeg (adj conns node)).2.toFinset.card :=
          (List.toFinset_card_of_nodup hnd2).symm
      _ ≤ (adj conns node).toFinset.card := Finset.card_le_card hsub
      _ ≤ (adj conns node).length := List.toFinset_card_le _
  refine ⟨⟨hieq', hnd', hmemn', hqz', hblk', hord'⟩, ?_⟩
  simp only [List.length_append]
  omega

/-- The loop establishes `KahnPost` whenever the fuel covers the
decreasing measure; in particular the fuel `compute_order` passes is
never exhausted. -/
theorem kahnLoop_post (conns : List (Nat × Nat)) : ∀ (fuel : Nat) (queue : List Nat)
    (indeg : Nat → Nat) (result : List Nat),
    KahnInv conns queue result indeg →
    queue.length + (∑ n ∈ nodeSet conns, indeg n) ≤ fuel →
    KahnPost conns (kahnLoop (adj conns) fuel queue indeg result) := by
  intro fuel
  induction fuel with
  | zero =>
    intro queue indeg result hinv hfuel
    have hq : queue = [] := by
      cases queue with
      | nil => rfl
      | cons a t => simp at hfuel
    subst hq
    exact kahnInv_nil_post hinv
  | succ f ih =>
    intro queue indeg result hinv hfuel
    cases queue with
    | nil => exact kahnInv_nil_post hinv
    | cons node rest =>
      obtain ⟨hinv', hdec⟩ := kahn_step hinv
      show KahnPost conns (kahnLoop (adj conns) f _ _ _)
      apply ih _ _ _ hinv'
      simp only [List.length_cons] at hfuel
      omega

/-- The invariant holds at loop entry, with the queue seeded from the
`in_degree` iteration `iterOrder`. -/
theorem kahnInv_init (conns : List (Nat × Nat)) (iterOrder : List Nat)
    (hnodup : iterOrder.Nodup) (hmem : iterOrder.toFinset = nodeSet conns) :
    KahnInv conns (iterOrder.filter fun n => indegInit conns n == 0) []
      (indegInit conns) := by
  have hmem' : ∀ n, n ∈ iterOrder ↔ n ∈ nodeSet conns := by
    intro n
    rw [← hmem, List.mem_toFinset]
  refine ⟨fun n => (unprocessedInto_nil conns n).symm, ?_, ?_, ?_, ?_, ?_⟩
  · simpa using hnodup.filter _
  · intro n hn
    simp only [List.nil_append, List.mem_filter] at hn
    exact (hmem' n).mp hn.1
  · intro n hn
    have := (List.mem_filter.mp hn).2
    simpa using this
  · intro n hnS hnr hnq
    intro hc
    apply hnq
    rw [List.mem_filter]
    exact ⟨(hmem' n).mpr hnS, by simpa using hc⟩
  · intro e he h2
    simp at h2

/-- With an acyclic connection set, every referenced node ends up in the
returned order: otherwise the set of stranded nodes would be a finite
nonempty set in which every node has an in-neighbour, yielding a cycle. -/
theorem complete_of_acyclic {conns : List (Nat × Nat)} {res : List Nat}
    (hacyc : Acyclic conns) (hpost : KahnPost conns res) :
    ∀ n ∈ nodeSet conns, n ∈ res := by
  intro n hn
  by_contra hneg
  classical
  let M : Finset Nat := (nodeSet conns).filter fun x => x ∉ res
  have hnM : n ∈ M := by
    simp only [M, Finset.mem_filter]
    exact ⟨hn, hneg⟩
  let r : {x // x ∈ M} → {x // x ∈ M} → Prop :=
    fun a b => Relation.TransGen (Edge conns) a.1 b.1
  haveI : IsTrans {x // x ∈ M} r := ⟨fun _ _ _ hab hbc => hab.trans hbc⟩
  haveI : IsIrrefl {x // x ∈ M} r := ⟨fun a ha => hacyc a.1 ha⟩
  obtain ⟨m, -, hmin⟩ :=
    (Finite.wellFounded_of_trans_of_irrefl r).has_min Set.univ ⟨⟨n, hnM⟩, trivial⟩
  have hmM := m.2
  simp only [M, Finset.mem_filter] at hmM
  have hpos := hpost.2.2.1 m.1 hmM.1 hmM.2
  obtain ⟨e, he, hpe⟩ := List.countP_pos_iff.mp hpos
  simp only [decide_eq_true_eq] at hpe
  have hsM : e.1 ∈ M := by
    simp only [M, Finset.mem_filter]
    exact ⟨(edge_mem_nodeSet he).1, hpe.2⟩
  have hedge : Edge conns e.1 m.1 := by
    unfold Edge
    have : (e.1, m.1) = e := by
      rw [← hpe.1]
    exact this ▸ he
  exact hmin ⟨e.1, hsM⟩ trivial (Relation.TransGen.single hedge)

/-- C1: for every acyclic connection set — under any iteration order of
the `in_degree` map, i.e. any duplicate-free enumeration of the
referenced nodes — `GraphScheduler::compute_order` returns an order that
contains every node referenced by some connection exactly once
(`Nodup` + membership) and in which every connection's source appears
strictly before its target. -/
theorem compute_order_topological (conns : List (Nat × Nat)) (iterOrder : List Nat)
    (hnodup : iterOrder.Nodup) (hmem : iterOrder.toFinset = nodeSet conns)
    (hacyc : Acyclic conns) :
    (compute_order iterOrder conns).Nodup
    ∧ (∀ n, n ∈ compute_order iterOrder conns ↔ n ∈ nodeSet conns)
    ∧ ∀ e ∈ conns, (compute_order iterOrder conns).indexOf e.1
        < (compute_order iterOrder conns).indexOf e.2 := by
  have hpost : KahnPost conns (compute_order iterOrder conns) := by
    apply kahnLoop_post conns _ _ _ _ (kahnInv_init conns iterOrder hnodup hmem)
    have h1 : (iterOrder.filter fun n => indegInit conns n == 0).length
        ≤ iterOrder.length := List.length_filter_le _ _
    have h2 := sum_indegInit_le (nodeSet conns) conns
    omega
  have hcomplete := complete_of_acyclic hacyc hpost
  refine ⟨hpost.1, fun n => ⟨fun h => hpost.2.1 n h, fun h => hcomplete n h⟩, ?_⟩
  intro e he
  have h2 : e.2 ∈ compute_order iterOrder conns :=
    hcomplete e.2 (edge_mem_nodeSet he).2
  exact (hpost.2.2.2 e he h2).2

/-- Witness for C1 at the source's own `test_simple_chain` input
0→1→2 with iteration order `[0, 1, 2]`. -/
theorem compute_order_topological_witness :
    (compute_order [0, 1, 2] [(0, 1), (1, 2)]).Nodup
    ∧ (∀ n, n ∈ compute_order [0, 1, 2] [(0, 1), (1, 2)]
        ↔ n ∈ nodeSet [(0, 1), (1, 2)])
    ∧ ∀ e ∈ [((0 : Nat), (1 : Nat)), (1, 2)],
        (compute_order [0, 1, 2] [(0, 1), (1, 2)]).indexOf e.1
          < (compute_order [0, 1, 2] [(0, 1), (1, 2)]).indexOf e.2 :=
  compute_order_topological [(0, 1), (1, 2)] [0, 1, 2] (by decide) (by decide)
    (acyclic_of_rank _ id (by decide))

/-- C2 (code bug): on the cyclic input A→B, B→A the code does NOT report
any error to the caller — the return type is a plain list and the source
only logs a warning — and the returned "order" is the empty list, a
proper subset of the two referenced nodes. -/
theorem compute_order_cycle_silent_partial :
    compute_order [0, 1] [(0, 1), (1, 0)] = []
    ∧ (nodeSet [(0, 1), (1, 0)]).card = 2 := by
  constructor
  · rfl
  · decide

/-- C8 (code bug): the output of `compute_order` depends on the
iteration order of the `in_degree` `HashMap`, which Rust randomizes per
map instance.  `[0, 1, 2]` and `[1, 0, 2]` are both duplicate-free
enumerations of the nodes referenced by the fixed connection set
`[(0,2), (1,2)]`, yet they produce different output orders, so two
invocations on the same connection set need not agree. -/
theorem compute_order_depends_on_iteration_order :
    compute_order [0, 1, 2] [(0, 2), (1, 2)] = [0, 1, 2]
    ∧ compute_order [1, 0, 2] [(0, 2), (1, 2)] = [1, 0, 2]
    ∧ compute_order [0, 1, 2] [(0, 2), (1, 2)]
        ≠ compute_order [1, 0, 2] [(0, 2), (1, 2)]
    ∧ ([0, 1, 2] : List Nat).Nodup ∧ ([1, 0, 2] : List Nat).Nodup
    ∧ ([0, 1, 2] : List Nat).toFinset = nodeSet [(0, 2), (1, 2)]
    ∧ ([1, 0, 2] : List Nat).toFinset = nodeSet [(0, 2), (1, 2)] := by
  refine ⟨rfl, rfl, by decide, by decide, by decide, by decide, by decide⟩

end GraphScheduler

/-! ## Musical time round-trip (C3) -/

theorem wrap64_eq_self {x : Int} (h1 : -(2 ^ 63) ≤ x) (h2 : x < 2 ^ 63) :
    wrap 64 x = x := by
  have h164 : ((64 : Nat) - 1) = 63 := by norm_num
  unfold wrap
  rw [h164]
  have e2 : x + 2 ^ 63 < 2 ^ 64 := by
    have h : (2 : Int) ^ 64 = 2 ^ 63 * 2 := by norm_num
    linarith
  rw [Int.emod_eq_of_lt (by linarith) e2]
  ring

theorem wrap32_eq_self {x : Int} (h1 : -(2 ^ 31) ≤ x) (h2 : x < 2 ^ 31) :
    wrap 32 x = x := by
  have h132 : ((32 : Nat) - 1) = 31 := by norm_num
  unfold wrap
  rw [h132]
  have e2 : x + 2 ^ 31 < 2 ^ 32 := by
    have h : (2 : Int) ^ 32 = 2 ^ 31 * 2 := by norm_num
    linarith
  rw [Int.emod_eq_of_lt (by linarith) e2]
  ring

/-- C3 (counterexample): within the claim's quantified domain
(`bar ≥ 1`, `bpb ≥ 1`, `1 ≤ beat ≤ bpb`, `0 ≤ tick < 960`, all `i32`
values) the `i64` multiplication in `to_ticks` overflows, and the
round-trip fails: at `bar = 5000000`, `beat = 1`, `tick = 0`,
`bpb = 2147483647` the product `(bar-1)*bpb*960` exceeds `2^63` and
wraps, so `from_ticks` does not recover the input. -/
theorem from_to_ticks_overflow :
    MusicalTime.from_ticks ((MusicalTime.new 5000000 1 0).to_ticks 2147483647)
        2147483647
      ≠ MusicalTime.new 5000000 1 0 := by decide

/-- C3 (amended): the round-trip
`from_ticks (new bar beat tick |>.to_ticks bpb) bpb = new bar beat tick`
holds for all `i32` values with `bar ≥ 1`, `1 ≤ beat ≤ bpb`,
`0 ≤ tick < 960`, provided the exact tick total
`(bar-1)*bpb*960 + (beat-1)*960 + tick` stays below `2^63`
(no `i64` overflow). -/
theorem to_from_ticks_roundtrip (bar beat tick bpb : Int)
    (hbar1 : 1 ≤ bar) (hbar2 : bar ≤ 2 ^ 31 - 1)
    (hbeat1 : 1 ≤ beat) (hbeat2 : beat ≤ bpb)
    (hbpb : bpb ≤ 2 ^ 31 - 1)
    (htick1 : 0 ≤ tick) (htick2 : tick < 960)
    (hof : (bar - 1) * bpb * 960 + (beat - 1) * 960 + tick < 2 ^ 63) :
    MusicalTime.from_ticks ((MusicalTime.new bar beat tick).to_ticks bpb) bpb
      = MusicalTime.new bar beat tick := by
  have h31 : (2 : Int) ^ 31 = 2147483648 := by norm_num
  have h63 : (2 : Int) ^ 63 = 9223372036854775808 := by norm_num
  rw [h31] at hbar2 hbpb
  rw [h63] at hof
  have hbpb1 : 1 ≤ bpb := le_trans hbeat1 hbeat2
  have hB0 : 0 ≤ bar - 1 := by linarith
  have hE0 : 0 ≤ beat - 1 := by linarith
  have hEP : beat - 1 ≤ bpb - 1 := by linarith
  have hBP0 : 0 ≤ (bar - 1) * bpb := mul_nonneg hB0 (by linarith)
  have hBP960 : (bar - 1) * bpb * 960 ≤ (bar - 1) * bpb * 960 + (beat - 1) * 960 + tick := by
    nlinarith
  have hBPlt : (bar - 1) * bpb < 2 ^ 63 := by rw [h63]; nlinarith
  have hE960 : (beat - 1) * 960 < 2 ^ 63 := by rw [h63]; nlinarith
  have htotal0 : 0 ≤ (bar - 1) * bpb * 960 + (beat - 1) * 960 + tick := by nlinarith
  -- to_ticks computes the exact total
  have hto : (MusicalTime.new bar beat tick).to_ticks bpb
      = (bar - 1) * bpb * 960 + (beat - 1) * 960 + tick := by
    unfold MusicalTime.to_ticks MusicalTime.new TICKS_PER_QUARTER_NOTE
    simp only
    rw [wrap32_eq_self (x := bar - 1) (by rw [h31]; linarith) (by rw [h31]; linarith),
        wrap32_eq_self (x := beat - 1) (by rw [h31]; linarith) (by rw [h31]; linarith),
        wrap64_eq_self (x := (bar - 1) * bpb) (by rw [h63]; nlinarith) hBPlt,
        wrap64_eq_self (x := (bar - 1) * bpb * 960)
          (by rw [h63]; nlinarith) (by rw [h63]; nlinarith),
        wrap64_eq_self (x := (beat - 1) * 960) (by rw [h63]; nlinarith) hE960,
        wrap64_eq_self (x := (bar - 1) * bpb * 960 + (beat - 1) * 960)
          (by rw [h63]; nlinarith) (by rw [h63]; nlinarith),
        wrap64_eq_self (x := (bar - 1) * bpb * 960 + (beat - 1) * 960 + tick)
          (by rw [h63]; nlinarith) (by rw [h63]; nlinarith)]
  rw [hto]
  -- from_ticks recovers the fields
  have htpb : wrap 64 (bpb * 960) = bpb * 960 := by
    apply wrap64_eq_self (by rw [h63]; nlinarith) (by rw [h63]; nlinarith)
  have hsplit : (bar - 1) * bpb * 960 + (beat - 1) * 960 + tick
      = ((beat - 1) * 960 + tick) + (bpb * 960) * (bar - 1) := by ring
  have hr0 : 0 ≤ (beat - 1) * 960 + tick := by nlinarith
  have hrlt : (beat - 1) * 960 + tick < bpb * 960 := by nlinarith
  have htpb0 : (0 : Int) < bpb * 960 := by nlinarith
  unfold MusicalTime.from_ticks TICKS_PER_QUARTER_NOTE
  simp only [htpb]
  have hdiv : ((bar - 1) * bpb * 960 + (beat - 1) * 960 + tick).tdiv (bpb * 960)
      = bar - 1 := by
    rw [Int.tdiv_eq_ediv htotal0 (by linarith), hsplit,
        Int.add_mul_ediv_left _ _ (ne_of_gt htpb0),
        Int.ediv_eq_zero_of_lt hr0 hrlt]
    ring
  have hmod : ((bar - 1) * bpb * 960 + (beat - 1) * 960 + tick).tmod (bpb * 960)
      = (beat - 1) * 960 + tick := by
    rw [Int.tmod_eq_emod htotal0 (by linarith), hsplit,
        Int.add_mul_emod_self_left, Int.emod_eq_of_lt hr0 hrlt]
  rw [hdiv, hmod]
  have hrsplit : (beat - 1) * 960 + tick = tick + 960 * (beat - 1) := by ring
  have hdiv2 : ((beat - 1) * 960 + tick).tdiv 960 = beat - 1 := by
    rw [Int.tdiv_eq_ediv hr0 (by norm_num), hrsplit,
        Int.add_mul_ediv_left _ _ (by norm_num : (960 : Int) ≠ 0),
        Int.ediv_eq_zero_of_lt htick1 htick2]
    ring
  have hmod2 : ((beat - 1) * 960 + tick).tmod 960 = tick := by
    rw [Int.tmod_eq_emod hr0 (by norm_num), hrsplit,
        Int.add_mul_emod_self_left, Int.emod_eq_of_lt htick1 htick2]
  rw [hdiv2, hmod2]
  rw [wrap32_eq_self (x := bar - 1) (by rw [h31]; linarith) (by rw [h31]; linarith),
      wrap32_eq_self (x := bar - 1 + 1) (by rw [h31]; linarith) (by rw [h31]; linarith),
      wrap32_eq_self (x := beat - 1) (by rw [h31]; linarith) (by rw [h31]; linarith),
      wrap32_eq_self (x := beat - 1 + 1) (by rw [h31]; linarith) (by rw [h31]; linarith),
      wrap32_eq_self (x := tick) (by rw [h31]; linarith) (by rw [h31]; linarith)]
  unfold MusicalTime.new
  congr 1 <;> ring

/-- Witness for the amended C3 at `bar = 2`, `beat = 3`, `tick = 100`,
`bpb = 4`. -/
theorem to_from_ticks_roundtrip_witness :
    (1 : Int) ≤ 2
    ∧ MusicalTime.from_ticks ((MusicalTime.new 2 3 100).to_ticks 4) 4
        = MusicalTime.new 2 3 100 :=
  ⟨by norm_num,
   to_from_ticks_roundtrip 2 3 100 4 (by norm_num) (by norm_num) (by norm_num)
     (by norm_num) (by norm_num) (by norm_num) (by norm_num) (by norm_num)⟩

/-! ## Audio buffer shape (C4) and truncation policy (C10) -/

/-- C4 (counterexample): `from_samples` with 5 samples and 2 channels
does not fail — there is no `ShapeMismatch` variant anywhere in the
code's error type — and the resulting buffer keeps all 5 samples while
`channels * frames = 4`, violating the claimed invariant. -/
theorem from_samples_no_error_shape_broken :
    (AudioBuffer.from_samples (List.replicate 5 (0 : Int)) 2).samples.length = 5
    ∧ (AudioBuffer.from_samples (List.replicate 5 (0 : Int)) 2).channels
        * (AudioBuffer.from_samples (List.replicate 5 (0 : Int)) 2).frames = 4 := by
  constructor <;> rfl

/-- C4 (amended): `from_samples` never fails; it derives
`frames = samples.len() / channels` by truncating division, so the shape
invariant `store length = channels × frames` holds after `from_samples`
exactly when the channel count divides the store length; the invariant
holds after `new` and is preserved by every mutating buffer operation
(`clear`, `copy_from`, `mix`, `apply_gain`, `set`). -/
theorem audioBuffer_shape_inv {S : Type} [Zero S] [Add S] [Mul S] :
    (∀ (s : List S) (ch : Nat), ch ∣ s.length →
      AudioBuffer.shapeInv (AudioBuffer.from_samples s ch))
    ∧ (∀ ch f : Nat, AudioBuffer.shapeInv (AudioBuffer.new (S := S) ch f))
    ∧ (∀ b : AudioBuffer S, AudioBuffer.shapeInv b → AudioBuffer.shapeInv b.clear)
    ∧ (∀ b o : AudioBuffer S, AudioBuffer.shapeInv b →
        AudioBuffer.shapeInv (b.copy_from o))
    ∧ (∀ b o : AudioBuffer S, AudioBuffer.shapeInv b →
        AudioBuffer.shapeInv (b.mix o))
    ∧ (∀ (b : AudioBuffer S) (g : S), AudioBuffer.shapeInv b →
        AudioBuffer.shapeInv (b.apply_gain g))
    ∧ (∀ (b : AudioBuffer S) (fr ch : Nat) (v : S), AudioBuffer.shapeInv b →
        AudioBuffer.shapeInv (b.set fr ch v)) := by
  refine ⟨?_, ?_, ?_, ?_, ?_, ?_, ?_⟩
  · intro s ch h
    unfold AudioBuffer.shapeInv AudioBuffer.from_samples
    exact (Nat.mul_div_cancel' h).symm
  · intro ch f
    unfold AudioBuffer.shapeInv AudioBuffer.new
    simp
  · intro b hb
    unfold AudioBuffer.shapeInv AudioBuffer.clear at *
    simpa using hb
  · intro b o hb
    unfold AudioBuffer.shapeInv AudioBuffer.copy_from at *
    simp only [List.length_append, List.length_take, List.length_drop]
    omega
  · intro b o hb
    unfold AudioBuffer.shapeInv AudioBuffer.mix at *
    simp only [List.length_append, List.length_zipWith, List.length_drop]
    omega
  · intro b g hb
    unfold AudioBuffer.shapeInv AudioBuffer.apply_gain at *
    simpa using hb
  · intro b fr ch v hb
    unfold AudioBuffer.shapeInv AudioBuffer.set at *
    split
    · simpa using hb
    · exact hb

/-- Witness for the amended C4: 6 samples over 2 channels. -/
theorem audioBuffer_shape_inv_witness :
    (2 : Nat) ∣ 6
    ∧ AudioBuffer.shapeInv (AudioBuffer.from_samples (List.replicate 6 (0 : Int)) 2)
    ∧ AudioBuffer.shapeInv
        ((AudioBuffer.new (S := Int) 2 3).mix (AudioBuffer.new (S := Int) 2 3)) :=
  ⟨⟨3, rfl⟩,
   (audioBuffer_shape_inv (S := Int)).1 _ 2 ⟨3, rfl⟩,
   (audioBuffer_shape_inv (S := Int)).2.2.2.2.1 _ _
     ((audioBuffer_shape_inv (S := Int)).2.1 2 3)⟩

/-- C10: when the source store is shorter than the destination store,
`copy_from` and `mix` leave every destination sample at an index at or
beyond the source length unchanged, and neither operation changes the
destination's channel or frame count. -/
theorem copy_mix_shorter_source {S : Type} [Add S] (dst src : AudioBuffer S)
    (h : src.samples.length < dst.samples.length) :
    (∀ i, src.samples.length ≤ i → ∀ d : S,
      (dst.copy_from src).samples.getD i d = dst.samples.getD i d)
    ∧ (∀ i, src.samples.length ≤ i → ∀ d : S,
      (dst.mix src).samples.getD i d = dst.samples.getD i d)
    ∧ (dst.copy_from src).channels = dst.channels
    ∧ (dst.copy_from src).frames = dst.frames
    ∧ (dst.mix src).channels = dst.channels
    ∧ (dst.mix src).frames = dst.frames := by
  have hmin : min dst.samples.length src.samples.length = src.samples.length :=
    min_eq_right (le_of_lt h)
  refine ⟨?_, ?_, rfl, rfl, rfl, rfl⟩
  · intro i hi d
    unfold AudioBuffer.copy_from
    simp only [hmin, List.take_length]
    rw [List.getD_eq_getElem?_getD, List.getD_eq_getElem?_getD,
        List.getElem?_append_right (le_trans (le_of_eq (by rfl)) hi),
        List.getElem?_drop, Nat.add_sub_cancel' hi]
  · intro i hi d
    unfold AudioBuffer.mix
    simp only [hmin]
    rw [List.getD_eq_getElem?_getD, List.getD_eq_getElem?_getD,
        List.getElem?_append_right (by
          rw [List.length_zipWith]
          omega),
        List.length_zipWith]
    rw [show dst.samples.length ⊓ src.samples.length = src.samples.length from hmin,
        List.getElem?_drop, Nat.add_sub_cancel' hi]

/-- Witness for C10 on concrete 1-channel buffers. -/
theorem copy_mix_shorter_source_witness :
    ([0, 0] : List Int).length < ([1, 2, 3] : List Int).length
    ∧ ((AudioBuffer.from_samples ([1, 2, 3] : List Int) 1).copy_from
        (AudioBuffer.from_samples ([0, 0] : List Int) 1)).samples.getD 2 7
        = (AudioBuffer.from_samples ([1, 2, 3] : List Int) 1).samples.getD 2 7 :=
  ⟨by decide,
   (copy_mix_shorter_source (AudioBuffer.from_samples ([1, 2, 3] : List Int) 1)
     (AudioBuffer.from_samples ([0, 0] : List Int) 1) (by decide)).1 2 (by decide) 7⟩

/-! ## MIDI Note-On with velocity 0 (C7) -/

/-- C7: for every channel `c ≤ 15` and every data byte `n`, a 3-byte
message whose status byte has high nibble `0x9` (`0x90 + c`) and whose
velocity byte is `0` decodes to `NoteOff`, and in particular never to
`NoteOn`. -/
theorem note_on_velocity_zero_is_note_off (c n : Nat) (hc : c ≤ 15) :
    MidiMessage.from_bytes [144 + c, n, 0]
      = some (.NoteOff (MidiChannel.mk15 c) (NoteNumber.mk127 n) (Velocity.mk127 0))
    ∧ ∀ ch nt vel, MidiMessage.from_bytes [144 + c, n, 0]
        ≠ some (.NoteOn ch nt vel) := by
  have hoff : MidiMessage.from_bytes [144 + c, n, 0]
      = some (.NoteOff (MidiChannel.mk15 c) (NoteNumber.mk127 n) (Velocity.mk127 0)) := by
    have H : ∀ k : Nat, k < 16 → ((144 + k) &&& 240 = 144 ∧ (144 + k) &&& 15 = k) := by
      decide
    obtain ⟨h240, h15⟩ := H c (by omega)
    simp [MidiMessage.from_bytes, h240, h15, Velocity.mk127]
  refine ⟨hoff, ?_⟩
  intro ch nt vel hc2
  rw [hoff] at hc2
  simp at hc2

/-- Witness for C7 at channel 5, note 60. -/
theorem note_on_velocity_zero_is_note_off_witness :
    (5 : Nat) ≤ 15
    ∧ MidiMessage.from_bytes [144 + 5, 60, 0]
        = some (.NoteOff (MidiChannel.mk15 5) (NoteNumber.mk127 60) (Velocity.mk127 0)) :=
  ⟨by decide, (note_on_velocity_zero_is_note_off 5 60 (by decide)).1⟩

/-- C5: at 120 BPM, 48000 Hz, 4/4, one beat spans 24000 samples; the
metronome click at playhead 0 (first beat of the bar) uses 880 Hz and at
playhead 24000 (second beat) uses 440 Hz. -/
theorem metronome_beat_frequencies :
    samples_per_beat 120 48000 = 24000
    ∧ metronome_click_freq 120 48000 4 0 0 = some 880
    ∧ metronome_click_freq 120 48000 4 24000 0 = some 440 := by
  refine ⟨by norm_num [samples_per_beat], ?_, ?_⟩ <;>
    norm_num [metronome_click_freq, samples_per_beat, ftrunc] <;> decide

theorem poolRun_available_add_held [Zero S] (N : Nat) : ∀ (ops : List PoolOp)
    (st : BufferPool S × List (AudioBuffer S)),
    st.1.available + st.2.length = N →
    (poolRun st ops).1.available + (poolRun st ops).2.length = N := by
  intro ops
  induction ops with
  | nil => intro st h; exact h
  | cons op rest ih =>
    intro st h
    show (poolRun (poolStep st op) rest).1.available
        + (poolRun (poolStep st op) rest).2.length = N
    apply ih
    cases op with
    | acquire =>
      unfold poolStep BufferPool.acquire
      rcases hb : st.1.buffers with - | ⟨b, t⟩ <;>
        simp_all [BufferPool.available, hb] <;> omega
    | release =>
      unfold poolStep BufferPool.release
      rcases hh : st.2 with - | ⟨b, t⟩ <;>
        simp_all [BufferPool.available]
      omega

/-- C6: starting from a pool of capacity `N`, any valid sequence of
acquires and releases (each release releasing a held buffer) leaves at
most `N` buffers outstanding, and once every acquired buffer has been
released, `available()` is `N` again.  Since every prefix of a valid
trace is valid, this bounds the outstanding count at every point of
every client interaction. -/
theorem bufferPool_capacity {S : Type} [Zero S] (N channels frames : Nat)
    (ops : List PoolOp)
    (hvalid : validOps (BufferPool.new (S := S) N channels frames,
      ([] : List (AudioBuffer S))) ops = true) :
    (poolRun (BufferPool.new (S := S) N channels frames,
      ([] : List (AudioBuffer S))) ops).2.length ≤ N
    ∧ ((poolRun (BufferPool.new (S := S) N channels frames,
        ([] : List (AudioBuffer S))) ops).2 = []
      → (poolRun (BufferPool.new (S := S) N channels frames,
          ([] : List (AudioBuffer S))) ops).1.available = N) := by
  have hinv := poolRun_available_add_held (S := S) N ops
    (BufferPool.new (S := S) N channels frames, ([] : List (AudioBuffer S)))
    (by simp [BufferPool.new, BufferPool.available])
  constructor
  · omega
  · intro hempty
    rw [hempty] at hinv
    simpa using hinv

/-- Witness for C6: capacity 2, trace acquire–acquire–release–acquire. -/
theorem bufferPool_capacity_witness :
    validOps (BufferPool.new (S := Int) 2 2 4, ([] : List (AudioBuffer Int)))
      [.acquire, .acquire, .release, .acquire] = true
    ∧ (poolRun (BufferPool.new (S := Int) 2 2 4, ([] : List (AudioBuffer Int)))
        [.acquire, .acquire, .release, .acquire]).2.length ≤ 2 :=
  ⟨by decide,
   (bufferPool_capacity (S := Int) 2 2 4 [.acquire, .acquire, .release, .acquire]
     (by decide)).1⟩

theorem process_commands_playhead (cmds : List AudioCommand) :
    ∀ (st : AudioCallbackState), (∀ c ∈ cmds, c.isSeek = false) →
    (process_commands st cmds).transport.playhead = st.transport.playhead := by
  induction cmds with
  | nil => intro st _; rfl
  | cons c rest ih =>
    intro st h
    have hc := h c (List.mem_cons_self c rest)
    have hrest := fun d hd => h d (List.mem_cons_of_mem _ hd)
    show (process_commands (applyCommand st c) rest).transport.playhead = _
    rw [ih _ hrest]
    cases c <;> first
      | rfl
      | simp [AudioCommand.isSeek] at hc

/-- C9 (counterexample): the claim fails at a reachable state.  A prior
invocation seeks to `i64::MAX` (`9223372036854775807`) while playing;
the next invocation — with no `Seek` pending and the transport playing
after the drain — processes a 512-sample (256-frame) stereo buffer, and
the release-mode wrapping add of `SamplePosition::advance` takes the
playhead to `-9223372036854775553`: not `playhead + F`, and strictly
below the previous playhead. -/
theorem process_playhead_overflow_wraps :
    (process_commands (process_state (AudioCallbackState.new 48000 256)
        [.Play, .Seek 9223372036854775807] 0) []).transport.is_playing = true
    ∧ (process_state (process_state (AudioCallbackState.new 48000 256)
        [.Play, .Seek 9223372036854775807] 0) [] 512).transport.playhead
      = -9223372036854775553
    ∧ (process_state (process_state (AudioCallbackState.new 48000 256)
        [.Play, .Seek 9223372036854775807] 0) [] 512).transport.playhead
      ≠ (process_state (AudioCallbackState.new 48000 256)
          [.Play, .Seek 9223372036854775807] 0).transport.playhead
        + ((512 / 2 : Nat) : Int)
    ∧ (process_state (process_state (AudioCallbackState.new 48000 256)
        [.Play, .Seek 9223372036854775807] 0) [] 512).transport.playhead
      < (process_state (AudioCallbackState.new 48000 256)
          [.Play, .Seek 9223372036854775807] 0).transport.playhead :=
  ⟨by decide, by decide, by decide, by decide⟩

/-- C9 (amended): over one `process` call on an output slice of
`outputLen` interleaved samples (`F = outputLen / 2` frames) with no
pending `Seek` command, provided the advanced playhead stays within
`i64` range (`playhead + F < 2^63` — the bound the counterexample above
forces): if the transport is playing after the drain, the playhead
advances by exactly `F`; otherwise it is unchanged; in both cases it
never decreases. -/
theorem process_playhead_advance (st : AudioCallbackState)
    (cmds : List AudioCommand) (outputLen : Nat)
    (hnoseek : ∀ c ∈ cmds, c.isSeek = false)
    (hlo : -(2 ^ 63) ≤ st.transport.playhead)
    (hhi : st.transport.playhead + (outputLen / 2 : Nat) < 2 ^ 63) :
    ((process_commands st cmds).transport.is_playing = true →
      (process_state st cmds outputLen).transport.playhead
        = st.transport.playhead + (outputLen / 2 : Nat))
    ∧ ((process_commands st cmds).transport.is_playing = false →
      (process_state st cmds outputLen).transport.playhead
        = st.transport.playhead)
    ∧ st.transport.playhead ≤ (process_state st cmds outputLen).transport.playhead := by
  have hdrain := process_commands_playhead cmds st hnoseek
  have hproj : (process_state st cmds outputLen).transport.playhead
      = if (process_commands st cmds).transport.is_playing
        then wrap 64 ((process_commands st cmds).transport.playhead
          + ((outputLen / 2 : Nat) : Int))
        else (process_commands st cmds).transport.playhead := by
    unfold process_state
    by_cases h : (process_commands st cmds).transport.is_playing <;>
      simp only [h, Bool.false_eq_true, if_true, if_false] <;> split <;> rfl
  have hframes0 : (0 : Int) ≤ ((outputLen / 2 : Nat) : Int) := Int.ofNat_nonneg _
  constructor
  · intro hplay
    rw [hproj, if_pos hplay, hdrain, wrap64_eq_self (by omega) (by omega)]
  constructor
  · intro hstop
    rw [hproj, if_neg (by simp [hstop]), hdrain]
  · by_cases hplay : (process_commands st cmds).transport.is_playing
    · rw [hproj, if_pos hplay, hdrain, wrap64_eq_self (by omega) (by omega)]
      omega
    · rw [hproj, if_neg hplay, hdrain]

/-- Witness for C9: fresh callback at 48000 Hz, a pending `Play`
command, a 512-sample (256-frame) stereo buffer. -/
theorem process_playhead_advance_witness :
    (process_state (AudioCallbackState.new 48000 256) [.Play] 512).transport.playhead
      = (AudioCallbackState.new 48000 256).transport.playhead + ((512 / 2 : Nat) : Int) :=
  (process_playhead_advance (AudioCallbackState.new 48000 256) [.Play] 512
    (by decide) (by decide) (by decide)).1 (by decide)

end Koto
